import Mathlib

/-!
Verification of the CodeSanitizer text-sanitization core (src/extension.ts).

The clean path (`removePatterns`) and the span/highlight path
(`getRangesForPatterns`) are embedded over `List Char`.  Every JavaScript
regular expression used by the source falls into a small fragment: literal
characters, one-character classes, greedy and lazy stars over a class, an
optional literal character, and the multiline anchors `^` / `$`.  The
matcher `matchSeq` implements ECMAScript backtracking semantics for that
fragment, and `replGo` / `execLoop` implement the semantics of
`String.replace` with a global regex and of the repeated `RegExp.exec`
loop (including the honest possibility of non-termination of the exec
loop via a fuel parameter).
-/

set_option maxRecDepth 40000

namespace CodeSanitizer

/-- ECMAScript `\s`: whitespace and line terminators. -/
def jsWs (c : Char) : Bool :=
  c == '\t' || c == '\n' || c == Char.ofNat 11 || c == Char.ofNat 12 ||
  c == '\r' || c == ' ' || c == Char.ofNat 0xA0 || c == Char.ofNat 0x1680 ||
  (Char.ofNat 0x2000 ≤ c && c ≤ Char.ofNat 0x200A) ||
  c == Char.ofNat 0x2028 || c == Char.ofNat 0x2029 ||
  c == Char.ofNat 0x202F || c == Char.ofNat 0x205F ||
  c == Char.ofNat 0x3000 || c == Char.ofNat 0xFEFF

/-- ECMAScript line terminators (for multiline `^`/`$` and for `.`). -/
def isLineTerm (c : Char) : Bool :=
  c == '\n' || c == '\r' || c == Char.ofNat 0x2028 || c == Char.ofNat 0x2029

/-- `.` without the `s` flag: any char except a line terminator. -/
def dotNoNl (c : Char) : Bool := !(isLineTerm c)

/-- `[\s\S]`, or `.` with the `s` flag: any char. -/
def anyChar (_ : Char) : Bool := true

/-- `[^)]` -/
def notRParen (c : Char) : Bool := c != ')'

/-- `[^;]` -/
def notSemi (c : Char) : Bool := c != ';'

/-- `[ \t]` -/
def spTab (c : Char) : Bool := c == ' ' || c == '\t'

/-- `[​-‍﻿]` -/
def invisibleChar (c : Char) : Bool :=
  (Char.ofNat 0x200B ≤ c && c ≤ Char.ofNat 0x200D) || c == Char.ofNat 0xFEFF

/-- The single-quote character `'` (code 39). -/
def sq : Char := Char.ofNat 39

/-- One syntactic element of a regex in the fragment used by the source. -/
inductive Item where
  | lit (c : Char)
  | cls (p : Char → Bool)
  | star (lz : Bool) (p : Char → Bool)
  | opt (c : Char)
  | bol (multiline : Bool)
  | eol (multiline : Bool)

/-- Length of the maximal prefix of `l` whose characters satisfy `p`. -/
def runLen (p : Char → Bool) : List Char → Nat
  | [] => 0
  | c :: cs => if p c then runLen p cs + 1 else 0

/-- Greedy star backtracking: try the continuation `f` at `i+k`, `i+k-1`,
..., `i`, returning the first success. -/
def tryGreedy (f : Nat → Option Nat) (i : Nat) : Nat → Option Nat
  | 0 => f i
  | k+1 => (f (i+k+1)).orElse fun _ => tryGreedy f i k

/-- Lazy star backtracking: try the continuation `f` at `i`, `i+1`, ...,
`i+k`, returning the first success. -/
def tryLazy (f : Nat → Option Nat) (i : Nat) : Nat → Option Nat
  | 0 => f i
  | k+1 => (f i).orElse fun _ => tryLazy f (i+1) k

/-- Backtracking match of an item sequence against `full` starting at
index `i`; returns the end index of the match found first in ECMAScript
backtracking order. -/
def matchSeq (full : List Char) : List Item → Nat → Option Nat
  | [], i => some i
  | .lit c :: rest, i =>
    if full.get? i = some c then matchSeq full rest (i+1) else none
  | .cls p :: rest, i =>
    if (full.get? i).any p then matchSeq full rest (i+1) else none
  | .opt c :: rest, i =>
    if full.get? i = some c then (matchSeq full rest (i+1)).orElse fun _ => matchSeq full rest i
    else matchSeq full rest i
  | .star lz p :: rest, i =>
    if lz then tryLazy (fun j => matchSeq full rest j) i (runLen p (full.drop i))
    else tryGreedy (fun j => matchSeq full rest j) i (runLen p (full.drop i))
  | .bol ml :: rest, i =>
    if i = 0 then matchSeq full rest i
    else if ml && (full.get? (i-1)).any isLineTerm then matchSeq full rest i
    else none
  | .eol ml :: rest, i =>
    if i = full.length then matchSeq full rest i
    else if ml && (full.get? i).any isLineTerm then matchSeq full rest i
    else none

/-- Minimal number of characters any match of the item list consumes. -/
def minLen : List Item → Nat
  | [] => 0
  | .lit _ :: r => minLen r + 1
  | .cls _ :: r => minLen r + 1
  | .opt _ :: r => minLen r
  | .star _ _ :: r => minLen r
  | .bol _ :: r => minLen r
  | .eol _ :: r => minLen r

/-- First match of `pat` at a position in `[i, i+k)` of `full`
(leftmost-first, as a JS regex scan). -/
def findFromAux (full : List Char) (pat : List Item) : Nat → Nat → Option (Nat × Nat)
  | 0, _ => none
  | k+1, i =>
    match matchSeq full pat i with
    | some e => some (i, e)
    | none => findFromAux full pat k (i+1)

/-- First match of `pat` in `full` starting at or after index `i`. -/
def findFrom (full : List Char) (pat : List Item) (i : Nat) : Option (Nat × Nat) :=
  findFromAux full pat (full.length + 1 - i) i

/-- One pass of `String.replace` with a global regex: scan from `i`,
substituting `repl` for every leftmost match; fuel decrements once per
scan step (each step advances the scan position by at least one). -/
def replGo (full : List Char) (pat : List Item) (repl : List Char) :
    Nat → Nat → Option (List Char)
  | 0, _ => none
  | fuel+1, i =>
    if full.length ≤ i then
      match matchSeq full pat i with
      | some _ => some repl
      | none => some []
    else
      match matchSeq full pat i with
      | none => (replGo full pat repl fuel (i+1)).map fun out => full.getD i ' ' :: out
      | some e =>
        if e ≤ i then
          (replGo full pat repl fuel (i+1)).map fun out => repl ++ full.getD i ' ' :: out
        else
          (replGo full pat repl fuel e).map fun out => repl ++ out

/-- `text.replace(/pat/g, repl)` as a fuel-honest partial function. -/
def replaceAllOpt (pat : List Item) (repl : List Char) (full : List Char) :
    Option (List Char) :=
  replGo full pat repl (full.length + 1) 0

/-- `text.replace(/pat/g, repl)`; the default branch is never reached
(see `replaceAllOpt_eq`). -/
def replaceAll (pat : List Item) (repl : List Char) (full : List Char) : List Char :=
  (replaceAllOpt pat repl full).getD full

/-- `text.replace(/pat/, repl)` for a non-global regex: replace the first
match only. -/
def replaceFirst (pat : List Item) (repl : List Char) (full : List Char) : List Char :=
  match findFrom full pat 0 with
  | none => full
  | some (j, e) => full.take j ++ repl ++ full.drop e

/-- The `while ((match = regex.exec(text)) !== null)` loop of the source:
`lastIndex` starts at `li` and is set to the end of each match.  An empty
match would leave `lastIndex` in place and loop forever, which the fuel
parameter reports as `none`. -/
def execLoop (full : List Char) (pat : List Item) : Nat → Nat → Option (List (Nat × Nat))
  | 0, _ => none
  | fuel+1, li =>
    match findFrom full pat li with
    | none => some []
    | some (j, e) => (execLoop full pat fuel e).map fun l => (j, e) :: l

/-- All spans produced by the exec loop started at `lastIndex = 0`. -/
def execRanges (full : List Char) (pat : List Item) : List (Nat × Nat) :=
  (execLoop full pat (full.length + 1) 0).getD []

/-- One entry of a pattern table: `{ regex: ..., languages?: [...] }`. -/
structure Rule where
  regex : List Item
  languages : Option (List String)

/-- The guard `!pattern.languages || pattern.languages.includes(languageId)`. -/
def langApplies (r : Rule) (languageId : String) : Bool :=
  match r.languages with
  | none => true
  | some ls => ls.contains languageId

/-- A string of literal items. -/
def lits (s : String) : List Item := s.data.map Item.lit

/- Removal patterns of `removePatterns` (source lines 457-471). -/

/-- `/^\s*console\.log\([^)]*\);?\s*$/gm` -/
def reConsoleLog : List Item :=
  [.bol true, .star false jsWs] ++ lits "console.log(" ++
  [.star false notRParen, .lit ')', .opt ';', .star false jsWs, .eol true]

/-- `/^\s*print\([^)]*\);?\s*$/gm` -/
def rePrintPy : List Item :=
  [.bol true, .star false jsWs] ++ lits "print(" ++
  [.star false notRParen, .lit ')', .opt ';', .star false jsWs, .eol true]

/-- `/^\s*printf\([^)]*\);?\s*$/gm` -/
def rePrintf : List Item :=
  [.bol true, .star false jsWs] ++ lits "printf(" ++
  [.star false notRParen, .lit ')', .opt ';', .star false jsWs, .eol true]

/-- `/^\s*std::cout\s*<<[^;]*;\s*$/gm` -/
def reCout : List Item :=
  [.bol true, .star false jsWs] ++ lits "std::cout" ++ [.star false jsWs] ++
  lits "<<" ++ [.star false notSemi, .lit ';', .star false jsWs, .eol true]

/-- `/^\s*System\.out\.println\([^)]*\);?\s*$/gm` -/
def reJavaPrintln : List Item :=
  [.bol true, .star false jsWs] ++ lits "System.out.println(" ++
  [.star false notRParen, .lit ')', .opt ';', .star false jsWs, .eol true]

/-- `/^\s*puts?\s+[^;]*;?\s*$/gm` -/
def rePuts : List Item :=
  [.bol true, .star false jsWs] ++ lits "put" ++
  [.opt 's', .cls jsWs, .star false jsWs, .star false notSemi, .opt ';',
   .star false jsWs, .eol true]

/-- `/^\s*echo\s+[^;]*;?\s*$/gm` -/
def reEcho : List Item :=
  [.bol true, .star false jsWs] ++ lits "echo" ++
  [.cls jsWs, .star false jsWs, .star false notSemi, .opt ';',
   .star false jsWs, .eol true]

/-- `/^\s*\/\/.*$/gm` -/
def reLineComment : List Item :=
  [.bol true, .star false jsWs, .lit '/', .lit '/', .star false dotNoNl, .eol true]

/-- `/\/\*[\s\S]*?\*\//g` -/
def reBlockComment : List Item :=
  [.lit '/', .lit '*', .star true anyChar, .lit '*', .lit '/']

/-- `/^\s*#.*$/gm` -/
def reHashComment : List Item :=
  [.bol true, .star false jsWs, .lit '#', .star false dotNoNl, .eol true]

/-- `/<!--[\s\S]*?-->/g` -/
def reHtmlComment : List Item :=
  lits "<!--" ++ [.star true anyChar] ++ lits "-->"

/-- `/^\s*'''[\s\S]*?'''\s*$/gm` -/
def reTripleSq : List Item :=
  [.bol true, .star false jsWs, .lit sq, .lit sq, .lit sq, .star true anyChar,
   .lit sq, .lit sq, .lit sq, .star false jsWs, .eol true]

/-- `/^\s*"""[\s\S]*?"""\s*$/gm` -/
def reTripleDq : List Item :=
  [.bol true, .star false jsWs, .lit '"', .lit '"', .lit '"', .star true anyChar,
   .lit '"', .lit '"', .lit '"', .star false jsWs, .eol true]

def cLikeLangs : List String :=
  ["javascript", "typescript", "java", "cpp", "c", "csharp", "go", "rust", "dart"]

def hashLangs : List String :=
  ["python", "ruby", "perl", "yaml", "dockerfile", "shellscript"]

/-- The ordered removal rule table of `removePatterns`. -/
def patterns : List Rule :=
  [⟨reConsoleLog, some ["javascript", "typescript"]⟩,
   ⟨rePrintPy, some ["python"]⟩,
   ⟨rePrintf, some ["c", "cpp"]⟩,
   ⟨reCout, some ["cpp"]⟩,
   ⟨reJavaPrintln, some ["java"]⟩,
   ⟨rePuts, some ["ruby"]⟩,
   ⟨reEcho, some ["php"]⟩,
   ⟨reLineComment, some cLikeLangs⟩,
   ⟨reBlockComment, some cLikeLangs⟩,
   ⟨reHashComment, some hashLangs⟩,
   ⟨reHtmlComment, some ["html", "xml"]⟩,
   ⟨reTripleSq, some ["python"]⟩,
   ⟨reTripleDq, some ["python"]⟩]

/- Normalization regexes (source lines 481-484). -/

/-- `/\n\s*\n\s*\n/g`, replaced with `"\n\n"`. -/
def reBlankRun : List Item :=
  [.lit '\n', .star false jsWs, .lit '\n', .star false jsWs, .lit '\n']

/-- `/[ \t]+$/gm`, replaced with `""`. -/
def reTrailWs : List Item := [.cls spTab, .star false spTab, .eol true]

/-- `/^\s*\n/` (no flags: `^` anchors to the string start), replaced once. -/
def reLeadBlank : List Item := [.bol false, .star false jsWs, .lit '\n']

/-- `/[​-‍﻿]/g`, replaced with `""`. -/
def reInvisible : List Item := [.cls invisibleChar]

/-- `patterns.forEach(... cleanedText = cleanedText.replace(..., ''))`. -/
def applyRules (rules : List Rule) (languageId : String) (t : List Char) : List Char :=
  match rules with
  | [] => t
  | r :: rest =>
    if langApplies r languageId then applyRules rest languageId (replaceAll r.regex [] t)
    else applyRules rest languageId t

def collapseBlankLines (t : List Char) : List Char :=
  replaceAll reBlankRun ['\n', '\n'] t

def stripTrailingWs (t : List Char) : List Char := replaceAll reTrailWs [] t

def stripLeadingBlank (t : List Char) : List Char := replaceFirst reLeadBlank [] t

def stripInvisible (t : List Char) : List Char := replaceAll reInvisible [] t

/-- The clean path `removePatterns(text, languageId)` (source lines 456-487). -/
def removePatterns (text : List Char) (languageId : String) : List Char :=
  stripInvisible (stripLeadingBlank (stripTrailingWs (collapseBlankLines
    (applyRules patterns languageId text))))

/-- Steps 3-6 of the spec's clean algorithm (the universal normalization
pass), as its own function for the no-op-on-unknown-language claim. -/
def normalizeSpec (t : List Char) : List Char :=
  stripInvisible (stripLeadingBlank (stripTrailingWs (collapseBlankLines t)))

/- Highlight pattern tables (source lines 512-529): unanchored variants. -/

/-- `/console\.log\([^)]*\);?/g` -/
def hConsoleLog : List Item :=
  lits "console.log(" ++ [.star false notRParen, .lit ')', .opt ';']

/-- `/print\([^)]*\);?/g` -/
def hPrintPy : List Item :=
  lits "print(" ++ [.star false notRParen, .lit ')', .opt ';']

/-- `/printf\([^)]*\);?/g` -/
def hPrintf : List Item :=
  lits "printf(" ++ [.star false notRParen, .lit ')', .opt ';']

/-- `/std::cout\s*<<[^;]*;/g` -/
def hCout : List Item :=
  lits "std::cout" ++ [.star false jsWs] ++ lits "<<" ++ [.star false notSemi, .lit ';']

/-- `/System\.out\.println\([^)]*\);?/g` -/
def hJavaPrintln : List Item :=
  lits "System.out.println(" ++ [.star false notRParen, .lit ')', .opt ';']

/-- `/puts?\s+[^;]*;?/g` -/
def hPuts : List Item :=
  lits "put" ++ [.opt 's', .cls jsWs, .star false jsWs, .star false notSemi, .opt ';']

/-- `/echo\s+[^;]*;?/g` -/
def hEcho : List Item :=
  lits "echo" ++ [.cls jsWs, .star false jsWs, .star false notSemi, .opt ';']

/-- `/\/\/.*$/gm` -/
def hLineComment : List Item :=
  [.lit '/', .lit '/', .star false dotNoNl, .eol true]

/-- `/\/\*[\s\S]*?\*\//g` -/
def hBlockComment : List Item := reBlockComment

/-- `/#.*$/gm` -/
def hHashComment : List Item := [.lit '#', .star false dotNoNl, .eol true]

/-- `/<!--[\s\S]*?-->/g` -/
def hHtmlComment : List Item := reHtmlComment

/-- `/'''.*?'''/gs` (`s` flag: `.` matches anything) -/
def hTripleSq : List Item :=
  [.lit sq, .lit sq, .lit sq, .star true anyChar, .lit sq, .lit sq, .lit sq]

/-- `/""".*?"""/gs` -/
def hTripleDq : List Item :=
  [.lit '"', .lit '"', .lit '"', .star true anyChar, .lit '"', .lit '"', .lit '"']

/-- The `printPatterns` table of `highlightPatterns`. -/
def printPatterns : List Rule :=
  [⟨hConsoleLog, some ["javascript", "typescript"]⟩,
   ⟨hPrintPy, some ["python"]⟩,
   ⟨hPrintf, some ["c", "cpp"]⟩,
   ⟨hCout, some ["cpp"]⟩,
   ⟨hJavaPrintln, some ["java"]⟩,
   ⟨hPuts, some ["ruby"]⟩,
   ⟨hEcho, some ["php"]⟩]

/-- The `commentPatterns` table of `highlightPatterns`. -/
def commentPatterns : List Rule :=
  [⟨hLineComment, some cLikeLangs⟩,
   ⟨hBlockComment, some cLikeLangs⟩,
   ⟨hHashComment, some hashLangs⟩,
   ⟨hHtmlComment, some ["html", "xml"]⟩,
   ⟨hTripleSq, some ["python"]⟩,
   ⟨hTripleDq, some ["python"]⟩]

/-- `getRangesForPatterns` (source lines 538-560).  `cursors` carries the
incoming `lastIndex` of each pattern's regex object; the source resets it
to `0` before every full scan (line 549), so the scan starts at `0`. -/
def getRangesForPatterns (text : List Char) (pats : List Rule) (languageId : String)
    (cursors : List Nat) : List (Nat × Nat) :=
  match pats with
  | [] => []
  | r :: rest =>
    if langApplies r languageId then
      let lastIndex := 0
      (execLoop text r.regex (text.length + 1) lastIndex).getD [] ++
        getRangesForPatterns text rest languageId cursors.tail
    else
      getRangesForPatterns text rest languageId cursors.tail

/-- The span-location path with explicit regex-cursor state for the print
and comment tables. -/
def locateSpansFrom (text : List Char) (languageId : String)
    (printCursors commentCursors : List Nat) :
    List (Nat × Nat) × List (Nat × Nat) :=
  (getRangesForPatterns text printPatterns languageId printCursors,
   getRangesForPatterns text commentPatterns languageId commentCursors)

/-- `locateSpans(text, languageId)`: the core of `highlightPatterns`. -/
def locateSpans (text : List Char) (languageId : String) :
    List (Nat × Nat) × List (Nat × Nat) :=
  locateSpansFrom text languageId [] []

/- Fuel-honest (Option-valued) variants for the totality claim. -/

def applyRulesOpt (rules : List Rule) (languageId : String) (t : List Char) :
    Option (List Char) :=
  match rules with
  | [] => some t
  | r :: rest =>
    if langApplies r languageId then
      (replaceAllOpt r.regex [] t).bind (applyRulesOpt rest languageId)
    else applyRulesOpt rest languageId t

def removePatternsOpt (text : List Char) (languageId : String) : Option (List Char) :=
  (applyRulesOpt patterns languageId text).bind fun a =>
  (replaceAllOpt reBlankRun ['\n', '\n'] a).bind fun b =>
  (replaceAllOpt reTrailWs [] b).bind fun c =>
  replaceAllOpt reInvisible [] (stripLeadingBlank c)

def getRangesOpt (text : List Char) (pats : List Rule) (languageId : String) :
    Option (List (Nat × Nat)) :=
  match pats with
  | [] => some []
  | r :: rest =>
    if langApplies r languageId then
      (execLoop text r.regex (text.length + 1) 0).bind fun s =>
        (getRangesOpt text rest languageId).map fun l => s ++ l
    else getRangesOpt text rest languageId

def locateSpansOpt (text : List Char) (languageId : String) :
    Option (List (Nat × Nat) × List (Nat × Nat)) :=
  (getRangesOpt text printPatterns languageId).bind fun p =>
  (getRangesOpt text commentPatterns languageId).map fun c => (p, c)

/-- Index just past the last newline inside the maximal whitespace prefix
of `t` scanning positions `0..k`; used to characterize what the
`/^\s*\n/` normalization step actually removes. -/
def lastNlUpTo (t : List Char) : Nat → Option Nat
  | 0 => if t.get? 0 = some '\n' then some 0 else none
  | k+1 => if t.get? (k+1) = some '\n' then some (k+1) else lastNlUpTo t k

/-- Number of characters the leading-blank-line step deletes: one past the
last newline of the leading whitespace run (0 when that run has no newline). -/
def leadingBlankLen (t : List Char) : Nat :=
  match lastNlUpTo t (runLen jsWs t) with
  | some j => j + 1
  | none => 0

/-! ## Generic lemmas about the matcher -/

theorem someOrElse {α : Type} (v : α) (f : Unit → Option α) :
    Option.orElse (some v) f = some v := rfl

theorem noneOrElse {α : Type} (f : Unit → Option α) :
    Option.orElse none f = f () := rfl

theorem tryGreedy_some (f : Nat → Option Nat) (i : Nat) :
    ∀ k e, tryGreedy f i k = some e → ∃ j, i ≤ j ∧ j ≤ i + k ∧ f j = some e := by
  intro k
  induction k with
  | zero =>
    intro e h
    exact ⟨i, Nat.le_refl _, by omega, h⟩
  | succ k ih =>
    intro e h
    simp only [tryGreedy] at h
    cases ho : f (i + k + 1) with
    | some v =>
      rw [ho, someOrElse] at h
      exact ⟨i + k + 1, by omega, by omega, by rw [ho, h]⟩
    | none =>
      rw [ho, noneOrElse] at h
      obtain ⟨j, h1, h2, h3⟩ := ih e h
      exact ⟨j, h1, by omega, h3⟩

theorem tryLazy_some (f : Nat → Option Nat) :
    ∀ k i e, tryLazy f i k = some e → ∃ j, i ≤ j ∧ j ≤ i + k ∧ f j = some e := by
  intro k
  induction k with
  | zero =>
    intro i e h
    exact ⟨i, Nat.le_refl _, by omega, h⟩
  | succ k ih =>
    intro i e h
    simp only [tryLazy] at h
    cases ho : f i with
    | some v =>
      rw [ho, someOrElse] at h
      exact ⟨i, Nat.le_refl _, by omega, by rw [ho, h]⟩
    | none =>
      rw [ho, noneOrElse] at h
      obtain ⟨j, h1, h2, h3⟩ := ih (i+1) e h
      exact ⟨j, by omega, by omega, h3⟩

theorem runLen_le (p : Char → Bool) : ∀ l : List Char, runLen p l ≤ l.length := by
  intro l
  induction l with
  | nil => simp [runLen]
  | cons c cs ih =>
    simp only [runLen, List.length_cons]
    split <;> omega

theorem get?_some_lt {l : List Char} {i : Nat} {c : Char}
    (h : l.get? i = some c) : i < l.length := by
  by_contra hc
  rw [List.get?_eq_none.mpr (by omega)] at h
  exact absurd h (by simp)

theorem matchSeq_bounds (full : List Char) :
    ∀ (its : List Item) (i e : Nat), i ≤ full.length →
      matchSeq full its i = some e → i + minLen its ≤ e ∧ e ≤ full.length := by
  intro its
  induction its with
  | nil =>
    intro i e hi h
    simp only [matchSeq, Option.some.injEq] at h
    subst h
    simp only [minLen]
    omega
  | cons it rest ih =>
    intro i e hi h
    cases it with
    | lit c =>
      simp only [matchSeq] at h
      split at h
      · rename_i hc
        have hlt : i < full.length := get?_some_lt hc
        have := ih (i+1) e (by omega) h
        simp only [minLen]
        omega
      · exact absurd h (by simp)
    | cls p =>
      simp only [matchSeq] at h
      split at h
      · rename_i hc
        have hlt : i < full.length := by
          cases hg : full.get? i with
          | none => rw [hg] at hc; simp at hc
          | some c2 => exact get?_some_lt hg
        have := ih (i+1) e (by omega) h
        simp only [minLen]
        omega
      · exact absurd h (by simp)
    | opt c =>
      simp only [matchSeq] at h
      split at h
      · rename_i hc
        have hlt : i < full.length := get?_some_lt hc
        cases ho : matchSeq full rest (i+1) with
        | some v =>
          rw [ho, someOrElse] at h
          have := ih (i+1) e (by omega) (by rw [ho, h])
          simp only [minLen]
          omega
        | none =>
          rw [ho, noneOrElse] at h
          have := ih i e hi h
          simp only [minLen]
          omega
      · have := ih i e hi h
        simp only [minLen]
        omega
    | star lz p =>
      simp only [matchSeq] at h
      have hrun : runLen p (full.drop i) ≤ full.length - i := by
        have := runLen_le p (full.drop i)
        simpa using this
      split at h
      · obtain ⟨j, h1, h2, h3⟩ := tryLazy_some _ _ _ _ h
        have hj : j ≤ full.length := by omega
        have := ih j e hj h3
        simp only [minLen]
        omega
      · obtain ⟨j, h1, h2, h3⟩ := tryGreedy_some _ _ _ _ h
        have hj : j ≤ full.length := by omega
        have := ih j e hj h3
        simp only [minLen]
        omega
    | bol ml =>
      simp only [matchSeq] at h
      split at h
      · have := ih i e hi h
        simp only [minLen]
        omega
      · split at h
        · have := ih i e hi h
          simp only [minLen]
          omega
        · exact absurd h (by simp)
    | eol ml =>
      simp only [matchSeq] at h
      split at h
      · have := ih i e hi h
        simp only [minLen]
        omega
      · split at h
        · have := ih i e hi h
          simp only [minLen]
          omega
        · exact absurd h (by simp)

theorem matchSeq_lit_head (full : List Char) (c : Char) (rest : List Item)
    (i e : Nat) (h : matchSeq full (.lit c :: rest) i = some e) :
    full.get? i = some c := by
  simp only [matchSeq] at h
  split at h
  · rename_i hc
    exact hc
  · exact absurd h (by simp)

theorem findFromAux_some (full : List Char) (pat : List Item) :
    ∀ k i j e, findFromAux full pat k i = some (j, e) →
      i ≤ j ∧ j < i + k ∧ matchSeq full pat j = some e := by
  intro k
  induction k with
  | zero =>
    intro i j e h
    simp [findFromAux] at h
  | succ k ih =>
    intro i j e h
    cases hm : matchSeq full pat i with
    | some e2 =>
      simp only [findFromAux, hm, Option.some.injEq, Prod.mk.injEq] at h
      obtain ⟨h1, h2⟩ := h
      subst h1
      subst h2
      exact ⟨Nat.le_refl _, by omega, hm⟩
    | none =>
      simp only [findFromAux, hm] at h
      obtain ⟨h1, h2, h3⟩ := ih (i+1) j e h
      exact ⟨by omega, by omega, h3⟩

theorem findFromAux_none (full : List Char) (pat : List Item) :
    ∀ k i, (∀ j, i ≤ j → matchSeq full pat j = none) →
      findFromAux full pat k i = none := by
  intro k
  induction k with
  | zero => intro i _; rfl
  | succ k ih =>
    intro i h
    simp only [findFromAux, h i (Nat.le_refl _)]
    exact ih (i+1) fun j hj => h j (by omega)

theorem findFrom_some (full : List Char) (pat : List Item) (i j e : Nat)
    (h : findFrom full pat i = some (j, e)) :
    i ≤ j ∧ j ≤ full.length ∧ matchSeq full pat j = some e := by
  unfold findFrom at h
  obtain ⟨h1, h2, h3⟩ := findFromAux_some full pat _ i j e h
  refine ⟨h1, ?_, h3⟩
  omega

theorem replGo_isSome (full : List Char) (pat : List Item) (repl : List Char) :
    ∀ fuel i, i ≤ full.length → full.length + 1 ≤ fuel + i →
      (replGo full pat repl fuel i).isSome := by
  intro fuel
  induction fuel with
  | zero =>
    intro i h1 h2
    exfalso
    omega
  | succ fuel ih =>
    intro i h1 h2
    by_cases hle : full.length ≤ i
    · cases hm : matchSeq full pat i <;>
        simp [replGo, if_pos hle, hm]
    · have hlt : i < full.length := by omega
      cases hm : matchSeq full pat i with
      | none =>
        have hs := ih (i+1) (by omega) (by omega)
        cases hrec : replGo full pat repl fuel (i+1) with
        | none => rw [hrec] at hs; simp at hs
        | some o => simp [replGo, if_neg hle, hm, hrec]
      | some e =>
        have hb := matchSeq_bounds full pat i e (by omega) hm
        by_cases hei : e ≤ i
        · have hs := ih (i+1) (by omega) (by omega)
          cases hrec : replGo full pat repl fuel (i+1) with
          | none => rw [hrec] at hs; simp at hs
          | some o => simp [replGo, if_neg hle, hm, if_pos hei, hrec]
        · have hs := ih e (by omega) (by omega)
          cases hrec : replGo full pat repl fuel e with
          | none => rw [hrec] at hs; simp at hs
          | some o => simp [replGo, if_neg hle, hm, if_neg hei, hrec]

theorem replaceAllOpt_eq (pat : List Item) (repl full : List Char) :
    replaceAllOpt pat repl full = some (replaceAll pat repl full) := by
  have h := replGo_isSome full pat repl (full.length + 1) 0 (by omega) (by omega)
  unfold replaceAll replaceAllOpt
  unfold replaceAllOpt at h
  cases hg : replGo full pat repl (full.length + 1) 0 with
  | none => rw [hg] at h; simp at h
  | some v => simp [hg]

theorem replGo_len (full : List Char) (pat : List Item) (repl : List Char)
    (hr : repl.length ≤ minLen pat) :
    ∀ fuel i out, i ≤ full.length → replGo full pat repl fuel i = some out →
      out.length + i ≤ full.length := by
  intro fuel
  induction fuel with
  | zero =>
    intro i out h1 h2
    simp [replGo] at h2
  | succ fuel ih =>
    intro i out h1 h2
    by_cases hle : full.length ≤ i
    · cases hm : matchSeq full pat i with
      | some e =>
        simp only [replGo, if_pos hle, hm, Option.some.injEq] at h2
        have hb := matchSeq_bounds full pat i e h1 hm
        subst h2
        omega
      | none =>
        simp only [replGo, if_pos hle, hm, Option.some.injEq] at h2
        subst h2
        simp
        omega
    · have hlt : i < full.length := by omega
      cases hm : matchSeq full pat i with
      | none =>
        simp only [replGo, if_neg hle, hm, Option.map_eq_some'] at h2
        obtain ⟨o, ho, rfl⟩ := h2
        have := ih (i+1) o (by omega) ho
        simp only [List.length_cons]
        omega
      | some e =>
        have hb := matchSeq_bounds full pat i e h1 hm
        by_cases hei : e ≤ i
        · simp only [replGo, if_neg hle, hm, if_pos hei, Option.map_eq_some'] at h2
          obtain ⟨o, ho, rfl⟩ := h2
          have := ih (i+1) o (by omega) ho
          simp only [List.length_append, List.length_cons]
          omega
        · simp only [replGo, if_neg hle, hm, if_neg hei, Option.map_eq_some'] at h2
          obtain ⟨o, ho, rfl⟩ := h2
          have := ih e o (by omega) ho
          simp only [List.length_append]
          omega

theorem replaceAll_len (pat : List Item) (repl full : List Char)
    (hr : repl.length ≤ minLen pat) :
    (replaceAll pat repl full).length ≤ full.length := by
  have h := replaceAllOpt_eq pat repl full
  unfold replaceAllOpt at h
  have := replGo_len full pat repl hr (full.length + 1) 0
    (replaceAll pat repl full) (by omega) h
  omega

theorem replaceFirst_len (pat : List Item) (full : List Char) :
    (replaceFirst pat [] full).length ≤ full.length := by
  unfold replaceFirst
  cases hf : findFrom full pat 0 with
  | none => simp
  | some je =>
    obtain ⟨j, e⟩ := je
    obtain ⟨h1, h2, h3⟩ := findFrom_some full pat 0 j e hf
    have hb := matchSeq_bounds full pat j e h2 h3
    simp only [List.length_append, List.length_take, List.length_drop, List.length_nil]
    omega

theorem execLoop_isSome (full : List Char) (pat : List Item) (hm1 : 1 ≤ minLen pat) :
    ∀ fuel li, li ≤ full.length → full.length + 1 ≤ fuel + li →
      (execLoop full pat fuel li).isSome := by
  intro fuel
  induction fuel with
  | zero =>
    intro li h1 h2
    exfalso
    omega
  | succ fuel ih =>
    intro li h1 h2
    cases hf : findFrom full pat li with
    | none => simp [execLoop, hf]
    | some je =>
      obtain ⟨j, e⟩ := je
      obtain ⟨hj1, hj2, hj3⟩ := findFrom_some full pat li j e hf
      have hb := matchSeq_bounds full pat j e hj2 hj3
      have hs := ih e (by omega) (by omega)
      cases hrec : execLoop full pat fuel e with
      | none => rw [hrec] at hs; simp at hs
      | some l => simp [execLoop, hf, hrec]

theorem execLoop_mem (full : List Char) (pat : List Item) :
    ∀ fuel li l, execLoop full pat fuel li = some l →
      ∀ sp ∈ l, matchSeq full pat sp.1 = some sp.2 := by
  intro fuel
  induction fuel with
  | zero =>
    intro li l h
    simp [execLoop] at h
  | succ fuel ih =>
    intro li l h sp hsp
    cases hf : findFrom full pat li with
    | none =>
      simp only [execLoop, hf, Option.some.injEq] at h
      subst h
      simp at hsp
    | some je =>
      obtain ⟨j, e⟩ := je
      simp only [execLoop, hf, Option.map_eq_some'] at h
      obtain ⟨l2, hl2, rfl⟩ := h
      rcases List.mem_cons.mp hsp with rfl | hmem
      · exact (findFrom_some full pat li j e hf).2.2
      · exact ih e l2 hl2 sp hmem

theorem execRanges_mem (full : List Char) (pat : List Item) (sp : Nat × Nat)
    (h : sp ∈ execRanges full pat) : matchSeq full pat sp.1 = some sp.2 := by
  unfold execRanges at h
  cases hg : execLoop full pat (full.length + 1) 0 with
  | none => rw [hg] at h; simp at h
  | some l =>
    rw [hg] at h
    simp only [Option.getD_some] at h
    exact execLoop_mem full pat _ 0 l hg sp h

theorem getRanges_mem (text : List Char) (languageId : String) :
    ∀ (pats : List Rule) (cursors : List Nat) (sp : Nat × Nat),
      sp ∈ getRangesForPatterns text pats languageId cursors →
      ∃ r ∈ pats, matchSeq text r.regex sp.1 = some sp.2 := by
  intro pats
  induction pats with
  | nil =>
    intro cursors sp h
    simp [getRangesForPatterns] at h
  | cons r rest ih =>
    intro cursors sp h
    simp only [getRangesForPatterns] at h
    split at h
    · rcases List.mem_append.mp h with h1 | h2
      · exact ⟨r, List.mem_cons_self r rest, execRanges_mem text r.regex sp h1⟩
      · obtain ⟨r2, hr2, hm⟩ := ih cursors.tail sp h2
        exact ⟨r2, List.mem_cons_of_mem _ hr2, hm⟩
    · obtain ⟨r2, hr2, hm⟩ := ih cursors.tail sp h
      exact ⟨r2, List.mem_cons_of_mem _ hr2, hm⟩

theorem getRanges_cursors_irrel (text : List Char) (languageId : String) :
    ∀ (pats : List Rule) (c1 c2 : List Nat),
      getRangesForPatterns text pats languageId c1 =
        getRangesForPatterns text pats languageId c2 := by
  intro pats
  induction pats with
  | nil => intro c1 c2; rfl
  | cons r rest ih =>
    intro c1 c2
    simp only [getRangesForPatterns]
    split
    · rw [ih c1.tail c2.tail]
    · exact ih c1.tail c2.tail

theorem applyRules_len (languageId : String) :
    ∀ (rules : List Rule) (t : List Char),
      (applyRules rules languageId t).length ≤ t.length := by
  intro rules
  induction rules with
  | nil => intro t; simp [applyRules]
  | cons r rest ih =>
    intro t
    simp only [applyRules]
    split
    · exact le_trans (ih _) (replaceAll_len _ _ _ (by simp))
    · exact ih t

theorem removePatterns_len (t : List Char) (languageId : String) :
    (removePatterns t languageId).length ≤ t.length := by
  unfold removePatterns stripInvisible stripLeadingBlank stripTrailingWs collapseBlankLines
  refine le_trans (replaceAll_len _ _ _ (by simp)) ?_
  refine le_trans (replaceFirst_len _ _) ?_
  refine le_trans (replaceAll_len _ _ _ (by simp)) ?_
  refine le_trans (replaceAll_len _ _ _ (by decide)) ?_
  exact applyRules_len languageId patterns t

theorem applyRulesOpt_eq (languageId : String) :
    ∀ (rules : List Rule) (t : List Char),
      applyRulesOpt rules languageId t = some (applyRules rules languageId t) := by
  intro rules
  induction rules with
  | nil => intro t; rfl
  | cons r rest ih =>
    intro t
    simp only [applyRulesOpt, applyRules]
    split
    · rw [replaceAllOpt_eq, Option.some_bind]
      exact ih _
    · exact ih t

theorem removePatternsOpt_eq (text : List Char) (languageId : String) :
    removePatternsOpt text languageId = some (removePatterns text languageId) := by
  unfold removePatternsOpt removePatterns
  rw [applyRulesOpt_eq, Option.some_bind]
  rw [show replaceAllOpt reBlankRun ['\n', '\n'] (applyRules patterns languageId text) =
    some (collapseBlankLines (applyRules patterns languageId text)) from replaceAllOpt_eq _ _ _]
  rw [Option.some_bind]
  rw [show replaceAllOpt reTrailWs [] (collapseBlankLines (applyRules patterns languageId text)) =
    some (stripTrailingWs (collapseBlankLines (applyRules patterns languageId text))) from
      replaceAllOpt_eq _ _ _]
  rw [Option.some_bind]
  exact replaceAllOpt_eq _ _ _

theorem getRangesOpt_eq (text : List Char) (languageId : String) :
    ∀ (pats : List Rule), (∀ r ∈ pats, 1 ≤ minLen r.regex) →
      ∀ cursors, getRangesOpt text pats languageId =
        some (getRangesForPatterns text pats languageId cursors) := by
  intro pats
  induction pats with
  | nil => intro _ cursors; rfl
  | cons r rest ih =>
    intro hall cursors
    have hr : 1 ≤ minLen r.regex := hall r (List.mem_cons_self r rest)
    have hrest : ∀ r2 ∈ rest, 1 ≤ minLen r2.regex :=
      fun r2 h2 => hall r2 (List.mem_cons_of_mem _ h2)
    simp only [getRangesOpt, getRangesForPatterns]
    split
    · have hs := execLoop_isSome text r.regex hr (text.length + 1) 0 (by omega) (by omega)
      cases hg : execLoop text r.regex (text.length + 1) 0 with
      | none => rw [hg] at hs; simp at hs
      | some l =>
        rw [Option.some_bind, ih hrest cursors.tail]
        simp
    · exact ih hrest cursors.tail

theorem locateSpansOpt_eq (text : List Char) (languageId : String)
    (hp : ∀ r ∈ printPatterns, 1 ≤ minLen r.regex)
    (hc : ∀ r ∈ commentPatterns, 1 ≤ minLen r.regex) :
    locateSpansOpt text languageId = some (locateSpans text languageId) := by
  unfold locateSpansOpt locateSpans locateSpansFrom
  rw [getRangesOpt_eq text languageId printPatterns hp [], Option.some_bind]
  rw [getRangesOpt_eq text languageId commentPatterns hc []]
  rfl

theorem tryGreedy_litNl (full : List Char) :
    ∀ k, tryGreedy (fun j => if full.get? j = some '\n' then some (j+1) else none) 0 k =
      Option.map (· + 1) (lastNlUpTo full k) := by
  intro k
  induction k with
  | zero =>
    simp only [tryGreedy, lastNlUpTo]
    split <;> simp
  | succ k ih =>
    simp only [tryGreedy, lastNlUpTo, Nat.zero_add]
    by_cases hc : full.get? (k+1) = some '\n'
    · rw [if_pos hc, if_pos hc, someOrElse]
      rfl
    · rw [if_neg hc, if_neg hc, noneOrElse]
      exact ih

theorem matchSeq_bolS_pos (full : List Char) (rest : List Item) (j : Nat) (hj : j ≠ 0) :
    matchSeq full (.bol false :: rest) j = none := by
  simp [matchSeq, hj]

theorem matchSeq_reLeadBlank (full : List Char) :
    matchSeq full reLeadBlank 0 =
      Option.map (· + 1) (lastNlUpTo full (runLen jsWs full)) := by
  simp only [reLeadBlank, matchSeq, List.drop_zero, if_pos rfl, if_true,
    Bool.false_eq_true, if_false]
  exact tryGreedy_litNl full _

theorem stripLeadingBlank_eq (t : List Char) :
    stripLeadingBlank t = t.drop (leadingBlankLen t) := by
  unfold stripLeadingBlank replaceFirst leadingBlankLen
  unfold findFrom
  cases hnl : lastNlUpTo t (runLen jsWs t) with
  | some j =>
    have hm : matchSeq t reLeadBlank 0 = some (j + 1) := by
      rw [matchSeq_reLeadBlank, hnl]
      rfl
    simp only [Nat.sub_zero, findFromAux, hm]
    simp
  | none =>
    have hm : matchSeq t reLeadBlank 0 = none := by
      rw [matchSeq_reLeadBlank, hnl]
      rfl
    have hrest : findFromAux t reLeadBlank t.length 1 = none := by
      apply findFromAux_none
      intro j hj
      exact matchSeq_bolS_pos t _ j (by omega)
    simp only [Nat.sub_zero, findFromAux, hm, hrest]
    simp

theorem applyRules_noop (languageId : String) :
    ∀ (rules : List Rule) (t : List Char),
      (∀ r ∈ rules, langApplies r languageId = false) →
      applyRules rules languageId t = t := by
  intro rules
  induction rules with
  | nil => intro t _; rfl
  | cons r rest ih =>
    intro t hall
    have hr := hall r (List.mem_cons_self r rest)
    simp only [applyRules, hr, Bool.false_eq_true, if_false]
    exact ih t fun r2 h2 => hall r2 (List.mem_cons_of_mem _ h2)

theorem highlightRule_head (r : Rule)
    (hr : r ∈ printPatterns ∨ r ∈ commentPatterns) :
    ∃ c rest, r.regex = Item.lit c :: rest ∧ jsWs c = false := by
  rcases hr with hr | hr
  · simp only [printPatterns, List.mem_cons, List.not_mem_nil, or_false] at hr
    rcases hr with rfl | rfl | rfl | rfl | rfl | rfl | rfl
    · exact ⟨'c', _, rfl, by decide⟩
    · exact ⟨'p', _, rfl, by decide⟩
    · exact ⟨'p', _, rfl, by decide⟩
    · exact ⟨'s', _, rfl, by decide⟩
    · exact ⟨'S', _, rfl, by decide⟩
    · exact ⟨'p', _, rfl, by decide⟩
    · exact ⟨'e', _, rfl, by decide⟩
  · simp only [commentPatterns, List.mem_cons, List.not_mem_nil, or_false] at hr
    rcases hr with rfl | rfl | rfl | rfl | rfl | rfl
    · exact ⟨'/', _, rfl, by decide⟩
    · exact ⟨'/', _, rfl, by decide⟩
    · exact ⟨'#', _, rfl, by decide⟩
    · exact ⟨'<', _, rfl, by decide⟩
    · exact ⟨sq, _, rfl, by decide⟩
    · exact ⟨'"', _, rfl, by decide⟩

/-! ## Claim theorems -/

/-- Claim C1, counterexample: the clean path is not idempotent.  On
`console./*x*/log(1);` with language `javascript`, the first pass only
deletes the block comment `/*x*/`, leaving `console.log(1);`, which a
second pass then deletes entirely. -/
theorem sanitize_not_idempotent :
    removePatterns
        (removePatterns ("console./*x*/log(1);".data) "javascript") "javascript" ≠
      removePatterns ("console./*x*/log(1);".data) "javascript" := by
  decide

/-- Claim C1, amended: running the clean transform a second time never
grows the text, `length(sanitize(sanitize(t, L), L)) ≤ length(sanitize(t, L))`;
full idempotence fails because a rule applied later in table order (block
comment removal) can expose a match for a rule applied earlier (the print
rule), as the counterexample shows. -/
theorem sanitize_second_pass_shrinks :
    ∀ (t : List Char) (L : String),
      (removePatterns (removePatterns t L) L).length ≤ (removePatterns t L).length :=
  fun t L => removePatterns_len (removePatterns t L) L

/-- Claim C2, counterexample: on `x = 1; // console.log(x);` with language
`javascript` the clean path removes nothing at all — the output equals the
input (which is nonempty), so the entire line is not removed. -/
theorem comment_print_line_unchanged :
    removePatterns ("x = 1; // console.log(x);".data) "javascript" =
        "x = 1; // console.log(x);".data ∧
      "x = 1; // console.log(x);".data ≠ ([] : List Char) := by
  constructor
  · decide
  · decide

/-- Claim C2, amended: the input `x = 1; // console.log(x);` with language
`javascript` is returned unchanged.  The line-comment removal pattern
`^\s*\/\/.*$` only matches a comment at the start of a line (after
whitespace), so a trailing comment after code is not removed, and the
print rule never fires; no dangling fragment is produced because nothing
is removed. -/
theorem comment_after_code_unchanged :
    removePatterns ("x = 1; // console.log(x);".data) "javascript" =
      "x = 1; // console.log(x);".data := by
  decide

/-- Claim C3: length monotonicity.  For every text and language tag,
`length(sanitize(t, L)) ≤ length(t)`: every removal rule substitutes the
empty string, the blank-line collapse replaces a match of at least three
characters by two, and the remaining normalization steps only delete. -/
theorem sanitize_length_monotone :
    ∀ (t : List Char) (L : String), (removePatterns t L).length ≤ t.length :=
  fun t L => removePatterns_len t L

/-- Claim C4, counterexample: a highlight span may end in whitespace.  On
`// hi ` with language `javascript` the comment span is `(0, 6)`, whose
matched text is the whole line including the trailing space at index 5. -/
theorem highlight_span_trailing_ws :
    locateSpans ("// hi ".data) "javascript" = ([], [(0, 6)]) ∧
      ("// hi ".data).get? 5 = some ' ' ∧ jsWs ' ' = true := by
  refine ⟨?_, ?_, ?_⟩
  · decide
  · decide
  · decide

/-- Claim C4, amended: every span `(s, e)` returned by the span path is a
genuine match of one of the unanchored highlight patterns (so the
substring `t[s:e]` is exactly the matched token), is nonempty, lies
within the text, and never starts with whitespace — but it may end with
whitespace inside the match, as the counterexample shows. -/
theorem highlight_span_exact_match :
    ∀ (t : List Char) (L : String) (sp : Nat × Nat),
      (sp ∈ (locateSpans t L).1 ∨ sp ∈ (locateSpans t L).2) →
      ∃ r : Rule, (r ∈ printPatterns ∨ r ∈ commentPatterns) ∧
        matchSeq t r.regex sp.1 = some sp.2 ∧ sp.1 < sp.2 ∧ sp.2 ≤ t.length ∧
        ∃ c, t.get? sp.1 = some c ∧ jsWs c = false := by
  intro t L sp hsp
  have hmem : ∃ r, (r ∈ printPatterns ∨ r ∈ commentPatterns) ∧
      matchSeq t r.regex sp.1 = some sp.2 := by
    rcases hsp with h | h
    · obtain ⟨r, hr, hm⟩ := getRanges_mem t L printPatterns [] sp h
      exact ⟨r, Or.inl hr, hm⟩
    · obtain ⟨r, hr, hm⟩ := getRanges_mem t L commentPatterns [] sp h
      exact ⟨r, Or.inr hr, hm⟩
  obtain ⟨r, hr, hm⟩ := hmem
  obtain ⟨c, rest, hre, hws⟩ := highlightRule_head r hr
  rw [hre] at hm
  have hget := matchSeq_lit_head t c rest sp.1 sp.2 hm
  have hlt : sp.1 < t.length := get?_some_lt hget
  have hb := matchSeq_bounds t (Item.lit c :: rest) sp.1 sp.2 (by omega) hm
  have hmin : minLen (Item.lit c :: rest) = minLen rest + 1 := rfl
  refine ⟨r, hr, ?_, ?_, hb.2, c, hget, hws⟩
  · rw [hre]
    exact hm
  · omega

/-- Claim C4, witness: the amended theorem applied to the comment span
`(0, 3)` that the span path returns on `# x` with language `python`. -/
theorem highlight_span_exact_match_check :
    ∃ r : Rule, (r ∈ printPatterns ∨ r ∈ commentPatterns) ∧
      matchSeq ("# x".data) r.regex 0 = some 3 ∧ 0 < 3 ∧ 3 ≤ ("# x".data).length ∧
      ∃ c, ("# x".data).get? 0 = some c ∧ jsWs c = false :=
  highlight_span_exact_match ("# x".data) "python" (0, 3) (Or.inr (by decide))

/-- Claim C5: both entry points are total.  The fuel-honest model of the
clean path never exhausts its fuel (every scan step advances the position),
and the fuel-honest model of the exec loop of the span path never exhausts
its fuel because every highlight pattern consumes at least one character
(`1 ≤ minLen`), so `lastIndex` strictly advances; both models agree with
the total functions. -/
theorem entry_points_total :
    ∀ (t : List Char) (L : String),
      removePatternsOpt t L = some (removePatterns t L) ∧
        locateSpansOpt t L = some (locateSpans t L) := by
  intro t L
  refine ⟨removePatternsOpt_eq t L, locateSpansOpt_eq t L ?_ ?_⟩
  · intro r hr
    simp only [printPatterns, List.mem_cons, List.not_mem_nil, or_false] at hr
    rcases hr with rfl | rfl | rfl | rfl | rfl | rfl | rfl <;> decide
  · intro r hr
    simp only [commentPatterns, List.mem_cons, List.not_mem_nil, or_false] at hr
    rcases hr with rfl | rfl | rfl | rfl | rfl | rfl <;> decide

/-- Claim C6: no-op on unknown language.  `sanitize(t, "plaintext")` is
exactly the universal normalization pass (steps 3-6: blank-line collapse,
trailing-whitespace strip, leading-blank strip, invisible-character
removal), and more generally any language tag matching no rule's
applicable-language set selects zero removal rules. -/
theorem sanitize_plaintext_is_normalize :
    ∀ (t : List Char) (L : String),
      removePatterns t "plaintext" = normalizeSpec t ∧
        ((∀ r ∈ patterns, langApplies r L = false) →
          removePatterns t L = normalizeSpec t) := by
  intro t L
  constructor
  · rfl
  · intro hall
    unfold removePatterns normalizeSpec
    rw [applyRules_noop L patterns t hall]

/-- Claim C6, witness: the theorem applied at `"a\n\n\n\nb"` and
`"plaintext"`, discharging the no-rule-applies hypothesis by computation. -/
theorem sanitize_plaintext_is_normalize_check :
    removePatterns ("a\n\n\n\nb".data) "plaintext" =
      normalizeSpec ("a\n\n\n\nb".data) :=
  (sanitize_plaintext_is_normalize ("a\n\n\n\nb".data) "plaintext").2 (by decide)

/-- Claim C7: the docstring example.  Cleaning the four-line Python input
(a `"""` docstring block followed by `print("hi")`) with language
`python` yields the empty string: the print rule fires first, then the
docstring rule (applied last in table order) removes the whole block. -/
theorem docstring_example_empty :
    removePatterns ("\"\"\"\ndebug notes\n\"\"\"\nprint(\"hi\")".data) "python" = [] := by
  decide

/-- Claim C8, counterexample: normalization step 5 does not strip only a
single leading blank line.  On `\n\nX` (two leading blank lines) it
removes both newlines, producing `X`, not `\nX`. -/
theorem leading_blank_strips_two :
    stripLeadingBlank ("\n\nX".data) = "X".data ∧ "X".data ≠ "\nX".data := by
  constructor
  · decide
  · decide

/-- Claim C8, amended: the leading-blank step (`text.replace(/^\s*\n/, '')`)
strips the whole leading run of blank lines, not a single one: it deletes
exactly the prefix of `t` up to and including the last newline inside the
maximal leading whitespace run (`leadingBlankLen t` characters), and
leaves the text unchanged when the leading whitespace contains no
newline. -/
theorem leading_blank_characterization :
    ∀ t : List Char, stripLeadingBlank t = t.drop (leadingBlankLen t) :=
  stripLeadingBlank_eq

/-- Claim C9: repeated-invocation determinism of the span path.  The
source resets each regex object's `lastIndex` to `0` before every full
scan, so the span lists are independent of the incoming cursor state of
every pattern, and two successive invocations on the same text and
language return identical span lists. -/
theorem span_path_cursor_deterministic :
    ∀ (t : List Char) (L : String) (cp cc cp2 cc2 : List Nat),
      locateSpansFrom t L cp cc = locateSpansFrom t L cp2 cc2 ∧
        locateSpansFrom t L cp cc = locateSpans t L := by
  intro t L cp cc cp2 cc2
  constructor
  · unfold locateSpansFrom
    rw [getRanges_cursors_irrel t L printPatterns cp cp2,
      getRanges_cursors_irrel t L commentPatterns cc cc2]
  · unfold locateSpans locateSpansFrom
    rw [getRanges_cursors_irrel t L printPatterns cp [],
      getRanges_cursors_irrel t L commentPatterns cc []]

/-- Claim C10: `javascript` and `typescript` are interchangeable.  Every
rule of the removal table and of both highlight tables that lists one of
the two tags also lists the other, so both the clean path and the span
path agree on the two tags for every text. -/
theorem js_ts_interchangeable :
    ∀ t : List Char,
      removePatterns t "javascript" = removePatterns t "typescript" ∧
        locateSpans t "javascript" = locateSpans t "typescript" :=
  fun _ => ⟨rfl, rfl⟩

end CodeSanitizer
